import Mathlib

/-!
Verification of the OpenAPI v2 schema-generation pipeline in
pkg/applyconfiguration/openapi.go: the definitions-assembly loop of
buildOpenAPISchema, resolveAllOfRefs, convertRefs, resolveRefDefinitions
and sanitizeForOpenAPIV2.

The Go code manipulates two representations: apiextensionsv1.JSONSchemaProps
values (the fragment tree walked by resolveAllOfRefs and convertRefs) and
generic JSON maps obtained by marshalling (walked by sanitizeForOpenAPIV2 and
resolveRefDefinitions). Both are embedded below: Fragment models the
JSONSchemaProps fields the code touches, and JValue models generic JSON.
Go maps are modelled as association lists; Go map iteration order, which is
unspecified, becomes list order.
-/

namespace OpenAPIGen

mutual

/-- Generic JSON values, as produced by encoding/json unmarshalling into
map[string]any. Objects and arrays are given by the mutually inductive
JObj and JList so that all recursion below is structural. -/
inductive JValue where
  | null : JValue
  | bool (b : Bool) : JValue
  | num (n : Int) : JValue
  | str (s : String) : JValue
  | arr (xs : JList) : JValue
  | obj (m : JObj) : JValue
deriving DecidableEq

inductive JList where
  | nil : JList
  | cons (v : JValue) (tl : JList) : JList
deriving DecidableEq

inductive JObj where
  | nil : JObj
  | cons (k : String) (v : JValue) (tl : JObj) : JObj
deriving DecidableEq

end

/-- Lookup of a key in a JSON object, first occurrence wins (Go map keys are
unique, so first occurrence is the only occurrence). -/
def lookupKey : JObj → String → Option JValue
  | .nil, _ => none
  | .cons k v tl, key => if k = key then some v else lookupKey tl key

/-- Presence test used by the sanitizer for the ref marker field. -/
def hasRefKey (m : JObj) : Bool :=
  (lookupKey m ("$ref")).isSome

/-- Whether sanitizeForOpenAPIV2 deletes the entry with key k from a schema
whose ref-presence flag is hasRef: the four version-specific fields are always
deleted, and type and format are deleted when a ref marker is present. -/
def droppedKey (hasRef : Bool) (k : String) : Bool :=
  k = "nullable" || k = "anyOf" || k = "oneOf" || k = "not" ||
    (hasRef && (k = "type" || k = "format"))

mutual

/-- Model of sanitizeForOpenAPIV2 from openapi.go. The Go function mutates a
map in place: it deletes type and format when a ref marker is present, deletes
nullable, anyOf, oneOf and not, and then recurses into the map values of
properties, into items, into additionalProperties and into the map elements of
allOf. Here the deletions are fused with the rebuild of the field list
(droppedKey) and the in-place recursion becomes rebuilding the value stored at
each of the four structural keys; non-object values at those keys are kept
unchanged exactly as the Go type assertions skip them. -/
def sanitize : JValue → JValue
  | .obj m => .obj (sanFields (hasRefKey m) m)
  | v => v

/-- One pass over the field list of a schema object: dropped fields are
removed, structural fields are recursed into, all others kept verbatim. -/
def sanFields (hasRef : Bool) : JObj → JObj
  | .nil => .nil
  | .cons k v tl =>
    if droppedKey hasRef k then sanFields hasRef tl
    else
      .cons k
        (if k = "properties" then sanProps v
         else if k = "items" then sanitize v
         else if k = "additionalProperties" then sanitize v
         else if k = "allOf" then sanAllOf v
         else v)
        (sanFields hasRef tl)

/-- Recursion into the properties map: every object-valued property schema is
sanitized, other values are untouched. -/
def sanProps : JValue → JValue
  | .obj pm => .obj (sanPropsFields pm)
  | v => v

/-- Sanitize every value of a properties map. -/
def sanPropsFields : JObj → JObj
  | .nil => .nil
  | .cons k v tl => .cons k (sanitize v) (sanPropsFields tl)

/-- Recursion into an allOf array: every object element is sanitized, other
elements are untouched. -/
def sanAllOf : JValue → JValue
  | .arr xs => .arr (sanAllOfList xs)
  | v => v

/-- Sanitize every element of an allOf array. -/
def sanAllOfList : JList → JList
  | .nil => .nil
  | .cons v tl => .cons (sanitize v) (sanAllOfList tl)

end

/-- The per-key transform sanFields applies to a kept field value. -/
def sanValueAt (k : String) (v : JValue) : JValue :=
  if k = "properties" then sanProps v
  else if k = "items" then sanitize v
  else if k = "additionalProperties" then sanitize v
  else if k = "allOf" then sanAllOf v
  else v

/-- Vendor extension keys: those with the distinct recognized x- primary
marker, such as x-kubernetes-map-type. -/
def isVendorKey (k : String) : Bool :=
  match k.toList with
  | 'x' :: '-' :: _ => true
  | _ => false

/-- Replace the value stored at an existing key, keeping its position; a map
assignment to a key that is absent is modelled by upsert below instead. -/
def updateKey : JObj → String → JValue → JObj
  | .nil, _, _ => .nil
  | .cons k w tl, key, v =>
    if k = key then .cons k v tl else .cons k w (updateKey tl key v)

/-- Go map assignment m[key] = v: replace the value if the key is present,
append the binding otherwise. -/
def upsert : JObj → String → JValue → JObj
  | .nil, key, v => .cons key v .nil
  | .cons k w tl, key, v =>
    if k = key then .cons k v tl else .cons k w (upsert tl key v)

/-- The keys of a JSON object in order. -/
def keysOf : JObj → List String
  | .nil => []
  | .cons k _ tl => k :: keysOf tl

/-- Whether a string starts with the swagger definitions marker used by
resolveRefDefinitions, written on character lists so the kernel can
evaluate it. -/
def hasDefsMark (r : String) : Bool :=
  decide (r.toList.take 14 = "#/definitions/".toList)

/-- Model of strings.TrimPrefix with the refPrefix constant of
resolveRefDefinitions: drop the definitions marker when present, otherwise
return the string unchanged. -/
def trimRefKey (r : String) : String :=
  if hasDefsMark r then r.drop 14 else r

/-- Whether a definition body qualifies for alias resolution: it carries a
string-valued ref marker field, exactly the two type assertions of
resolveRefDefinitions. -/
def isAliasBody (m : JObj) : Bool :=
  match lookupKey m ("$ref") with
  | some (.str _) => true
  | _ => false

/-- Copy of the target definition with the extra fields of the alias written
over it: models maps.Copy into a fresh map followed by the loop writing every
non-ref field of the original alias body, extras winning over same-named
fields of the copied target. -/
def mergeExtras : JObj → JObj → JObj
  | .nil, acc => acc
  | .cons k v tl, acc =>
    if k = "$ref" then mergeExtras tl acc else mergeExtras tl (upsert acc k v)

/-- One iteration of the resolveRefDefinitions loop at a given key, operating
on the current definitions map: skip unless the definition at the key is an
object carrying a string ref marker whose target key (after trimming the
definitions marker) is present and bound to an object; in that case replace
the definition with the target body overlaid with the alias extras. -/
def resolveStep (defs : JObj) (key : String) : JObj :=
  match lookupKey defs key with
  | some (.obj dm) =>
    match lookupKey dm ("$ref") with
    | some (.str r) =>
      match lookupKey defs (trimRefKey r) with
      | some (.obj tm) => updateKey defs key (.obj (mergeExtras dm tm))
      | _ => defs
    | _ => defs
  | _ => defs

/-- Model of resolveRefDefinitions from openapi.go: iterate over every key of
the definitions map (list order standing in for Go map iteration order),
resolving alias definitions in place. The key set never changes; only values
at visited keys are updated. -/
def resolveRefDefinitions (defs : JObj) : JObj :=
  (keysOf defs).foldl resolveStep defs

/-- The flat key of a type identifier, line 124 of openapi.go: the
name-friendliness transform applied to pkgPath dot Name. The transform itself
(util.ToRESTFriendlyName of kube-openapi) is an external collaborator and is a
parameter here. -/
def identKey (toKey : String → String) (ident : String × String) : String :=
  toKey (ident.1 ++ "." ++ ident.2)

/-- Model of the definitions-assembly loop of buildOpenAPISchema
(lines 93-138): every type of the schema universe is processed into one
definition keyed by identKey. The per-type fragment stages (allOf resolution,
flattening, ref conversion, JSON marshalling) act on a different
representation and are abstracted as the already-marshalled JSON value in the
input list; what this function keeps from the source is the key computation,
the per-definition sanitization inside the loop, and plain map assignment
with no collision detection. The group-version-kind annotation added to root
types is orthogonal to every claim below and is omitted. -/
def assembleDefinitions (toKey : String → String)
    (schemata : List ((String × String) × JValue)) : JObj :=
  schemata.foldl (fun acc ts => upsert acc (identKey toKey ts.1) (sanitize ts.2)) .nil

/-- The same assembly loop without the in-loop sanitization, used to state the
stage-order comparison for the pipeline-order claim. -/
def assembleRaw (toKey : String → String)
    (schemata : List ((String × String) × JValue)) : JObj :=
  schemata.foldl (fun acc ts => upsert acc (identKey toKey ts.1) ts.2) .nil

/-- Sanitize every value of a definitions map. -/
def mapObjSan : JObj → JObj
  | .nil => .nil
  | .cons k v tl => .cons k (sanitize v) (mapObjSan tl)

/-- The final definitions map produced by buildOpenAPISchema, lines 93-140:
the assembly loop with per-definition sanitization, followed by the alias
resolution pass. -/
def buildFinalDefinitions (toKey : String → String)
    (schemata : List ((String × String) × JValue)) : JObj :=
  resolveRefDefinitions (assembleDefinitions toKey schemata)

/-- Modelled from the spec: the stage order of sections 2 and 4.5, in which
the Version Sanitizer runs last, strictly after the Alias Resolver, so the
final map is the sanitization of the alias-resolved assembled map. Written
from the words of the spec for comparison with buildFinalDefinitions, which
is written from the source. -/
def specSanitizeLastDefinitions (toKey : String → String)
    (schemata : List ((String × String) × JValue)) : JObj :=
  mapObjSan (resolveRefDefinitions (assembleRaw toKey schemata))

/-- Path steps through the structural fields of a JSON schema object,
mirroring exactly the positions sanitizeForOpenAPIV2 recurses into. -/
inductive JStep where
  | prop (name : String)
  | items
  | addProps
  | allOfIdx (i : Nat)
deriving DecidableEq

/-- The element of a JSON array at an index. -/
def jlistGet : JList → Nat → Option JValue
  | .nil, _ => none
  | .cons v _, 0 => some v
  | .cons _ tl, n + 1 => jlistGet tl n

/-- Walk a JSON value along a path of structural steps: through the value of
a named property (requiring the properties field to be an object), through
items, through additionalProperties, and through an index of an allOf array.
Every object reachable from a schema along such a path is a nested fragment
the sanitizer is specified to reach. -/
def follow : JValue → List JStep → Option JValue
  | v, [] => some v
  | .obj m, .prop name :: p =>
    (match lookupKey m ("properties") with
     | some (.obj pm) =>
       (match lookupKey pm name with
        | some v => follow v p
        | none => none)
     | _ => none)
  | .obj m, .items :: p =>
    (match lookupKey m ("items") with
     | some v => follow v p
     | none => none)
  | .obj m, .addProps :: p =>
    (match lookupKey m ("additionalProperties") with
     | some v => follow v p
     | none => none)
  | .obj m, .allOfIdx i :: p =>
    (match lookupKey m ("allOf") with
     | some (.arr xs) =>
       (match jlistGet xs i with
        | some v => follow v p
        | none => none)
     | _ => none)
  | _, _ :: _ => none

mutual

/-- The part of apiextensionsv1.JSONSchemaProps that resolveAllOfRefs and
convertRefs read or write: the reference, the properties map, the items
schema (JSONSchemaPropsOrArray collapsed to its Schema field, the only case
the code touches), the additionalProperties schema (likewise), and the allOf
list. The typ field stands for the remaining scalar fields such as Type,
which both walks carry along untouched; it witnesses that sibling fields of a
replaced allOf entry are discarded. -/
inductive Fragment where
  | mk (ref : Option String) (typ : Option String) (props : Props)
      (items : OptFrag) (addProps : OptFrag) (allOf : FragList) : Fragment
deriving DecidableEq

/-- The Properties map of a fragment, an association list of named nested
fragments. -/
inductive Props where
  | nil : Props
  | cons (k : String) (v : Fragment) (tl : Props) : Props
deriving DecidableEq

/-- An optional nested fragment (items or additionalProperties). -/
inductive OptFrag where
  | none : OptFrag
  | some (f : Fragment) : OptFrag
deriving DecidableEq

/-- An allOf list of fragments. -/
inductive FragList where
  | nil : FragList
  | cons (v : Fragment) (tl : FragList) : FragList
deriving DecidableEq

end

/-- The Ref field of a fragment. -/
def fragRef : Fragment → Option String
  | .mk r _ _ _ _ _ => r

/-- The scalar carrier field of a fragment. -/
def fragTyp : Fragment → Option String
  | .mk _ t _ _ _ _ => t

/-- The Properties field of a fragment. -/
def fragProps : Fragment → Props
  | .mk _ _ p _ _ _ => p

/-- The items schema of a fragment. -/
def fragItems : Fragment → OptFrag
  | .mk _ _ _ it _ _ => it

/-- The additionalProperties schema of a fragment. -/
def fragAddProps : Fragment → OptFrag
  | .mk _ _ _ _ ap _ => ap

/-- The AllOf field of a fragment. -/
def fragAllOf : Fragment → FragList
  | .mk _ _ _ _ _ ao => ao

/-- The test of line 185 of openapi.go: the entry carries a reference and it
is non-empty. -/
def nonEmptyRef (f : Fragment) : Bool :=
  match fragRef f with
  | Option.some r => decide (r ≠ "")
  | Option.none => false

/-- Lookup of a named property. -/
def lookupProps : Props → String → Option Fragment
  | .nil, _ => none
  | .cons k v tl, key => if k = key then some v else lookupProps tl key

/-- The element of an allOf list at an index. -/
def flGet : FragList → Nat → Option Fragment
  | .nil, _ => none
  | .cons v _, 0 => some v
  | .cons _ tl, n + 1 => flGet tl n

/-- Split a character list at the first occurrence of the tilde-zero
separator of the internal reference format, if any. -/
def splitFirstSep : List Char → Option (List Char × List Char)
  | [] => none
  | '~' :: '0' :: rest => some ([], rest)
  | c :: rest =>
    match splitFirstSep rest with
    | none => none
    | some (a, b) => some (c :: a, b)

/-- Undo the escaping of the path separator in the internal reference format:
tilde-one stands for a slash. -/
def unescapeSlash : List Char → List Char
  | [] => []
  | '~' :: '1' :: rest => '/' :: unescapeSlash rest
  | c :: rest => c :: unescapeSlash rest

/-- Modelled from the spec: crd.RefParts of pkg/crd is called by openapi.go
but its source is not under src. Per the spec glossary (internal reference
format) and the comment at line 237 of openapi.go, an internal reference is
the definitions marker followed by the package path with slashes escaped as
tilde-one, then the tilde-zero separator, then the type name; the package
part may be absent for locally-scoped types. Parsing fails exactly when the
definitions marker is missing. Returns (typeName, pkgPath) in the order of
the Go call site. -/
def refParts (r : String) : Except String (String × String) :=
  if hasDefsMark r then
    match splitFirstSep (r.toList.drop 14) with
    | none => .ok (String.mk (r.toList.drop 14), "")
    | some (a, b) => .ok (String.mk b, String.mk (unescapeSlash a))
  else .error ("failed to parse ref " ++ r)

/-- The rewrite convertRefs applies to a single reference string: parseable
references become the definitions marker followed by the external key of the
referenced type, with the owning context substituted for an absent package
path; references that fail to parse are returned unchanged. -/
def convertRefStr (toKey : String → String) (ctx : String) (r : String) : String :=
  match refParts r with
  | .ok (typeName, pkgPath) =>
    "#/definitions/" ++ toKey ((if pkgPath = "" then ctx else pkgPath) ++ "." ++ typeName)
  | .error _ => r

/-- The Ref-field update of convertRefs, lines 244-253 of openapi.go: only a
present, non-empty reference that parses is rewritten; a parse failure leaves
the reference unchanged and raises no error. -/
def convertRefOpt (toKey : String → String) (ctx : String) :
    Option String → Option String
  | Option.some r =>
    if r = "" then Option.some r
    else
      match refParts r with
      | .ok (typeName, pkgPath) =>
        Option.some
          ("#/definitions/" ++ toKey ((if pkgPath = "" then ctx else pkgPath) ++ "." ++ typeName))
      | .error _ => Option.some r
  | Option.none => Option.none

mutual

/-- Model of convertRefs from openapi.go, lines 239-268: rewrite the
reference of the fragment itself, then recurse into every property value,
every allOf entry, items, and additionalProperties. The walk returns no
error; the Go function has no error path. -/
def convertRefs (toKey : String → String) (ctx : String) : Fragment → Fragment
  | .mk ref typ props items addProps allOf =>
    .mk (convertRefOpt toKey ctx ref) typ (convertRefsProps toKey ctx props)
      (convertRefsOpt toKey ctx items) (convertRefsOpt toKey ctx addProps)
      (convertRefsList toKey ctx allOf)

/-- convertRefs over a properties map. -/
def convertRefsProps (toKey : String → String) (ctx : String) : Props → Props
  | .nil => .nil
  | .cons k v tl => .cons k (convertRefs toKey ctx v) (convertRefsProps toKey ctx tl)

/-- convertRefs over an optional nested fragment. -/
def convertRefsOpt (toKey : String → String) (ctx : String) : OptFrag → OptFrag
  | .none => .none
  | .some f => .some (convertRefs toKey ctx f)

/-- convertRefs over an allOf list. -/
def convertRefsList (toKey : String → String) (ctx : String) : FragList → FragList
  | .nil => .nil
  | .cons v tl => .cons (convertRefs toKey ctx v) (convertRefsList toKey ctx tl)

end

/-- The schema universe: the Schemata map of the parser, keyed by type
identifier, modelled as a (package path, type name) pair. -/
def Universe : Type := List ((String × String) × Fragment)

/-- Lookup of a type identifier in the universe. -/
def lookupUniv (univ : Universe) (ident : String × String) : Option Fragment :=
  match univ with
  | [] => none
  | (i, f) :: tl => if i = ident then some f else lookupUniv tl ident

/-- Whether a package path occurs in the universe: models the pkgByPath map
of buildOpenAPISchema, which is populated from the identifiers of Schemata. -/
def pkgKnown (univ : Universe) (pkgPath : String) : Bool :=
  match univ with
  | [] => false
  | (i, _) :: tl => i.1 = pkgPath || pkgKnown tl pkgPath

mutual

/-- Model of resolveAllOfRefs from openapi.go, lines 178-234: process every
allOf entry (resolveEntryFuel), then recurse into every property value, into
items, and into additionalProperties, in the order of the source. The Go
recursion is unbounded (the spec notes cyclic embedding would recurse to
resource exhaustion), so the model spends one unit of fuel on every call; a
run of the Go function that terminates is a run of this model with any
sufficiently large fuel. DeepCopy is the identity on pure values. -/
def resolveAllOfRefs : Nat → String → Universe → Fragment → Except String Fragment
  | 0, _, _, _ => .error "out of fuel"
  | fuel + 1, ctx, univ, .mk ref typ props items addProps allOf => do
    let allOf' ← resolveAllOfList fuel ctx univ allOf
    let props' ← resolvePropsFuel fuel ctx univ props
    let items' ← resolveOptFuel fuel ctx univ items
    let addProps' ← resolveOptFuel fuel ctx univ addProps
    return .mk ref typ props' items' addProps' allOf'

/-- The allOf loop of resolveAllOfRefs: each entry is handled by
resolveEntryFuel, errors aborting the whole walk. -/
def resolveAllOfList : Nat → String → Universe → FragList → Except String FragList
  | 0, _, _, _ => .error "out of fuel"
  | _ + 1, _, _, .nil => .ok .nil
  | fuel + 1, ctx, univ, .cons e tl => do
    let e' ← resolveEntryFuel fuel ctx univ e
    let tl' ← resolveAllOfList fuel ctx univ tl
    return .cons e' tl'

/-- One allOf entry, lines 184-213 of openapi.go: an entry carrying a
non-empty reference is parsed (parse failure is fatal), its owning package is
the explicit one when present (which must be known) and the context package
otherwise, the referenced fragment is looked up in the universe (absence is
fatal), and the deep copy of the referenced fragment, recursively resolved in
the referenced package context, replaces the whole entry; every other field
of the original entry is dropped. An entry without a non-empty reference is
recursed into in place under the unchanged context. -/
def resolveEntryFuel : Nat → String → Universe → Fragment → Except String Fragment
  | 0, _, _, _ => .error "out of fuel"
  | fuel + 1, ctx, univ, e =>
    if nonEmptyRef e then
      match fragRef e with
      | Option.some r =>
        (match refParts r with
         | .error msg => .error msg
         | .ok (typeName, pkgPath) =>
           let pkg := if pkgPath = "" then ctx else pkgPath
           if pkgPath ≠ "" && !pkgKnown univ pkgPath then
             .error ("package not found for ref " ++ r)
           else
             match lookupUniv univ (pkg, typeName) with
             | Option.none => .error ("schema not found for type " ++ typeName)
             | Option.some t => resolveAllOfRefs fuel pkg univ t)
      | Option.none => .error "unreachable"
    else
      resolveAllOfRefs fuel ctx univ e

/-- The properties loop of resolveAllOfRefs, lines 217-222. -/
def resolvePropsFuel : Nat → String → Universe → Props → Except String Props
  | 0, _, _, _ => .error "out of fuel"
  | _ + 1, _, _, .nil => .ok .nil
  | fuel + 1, ctx, univ, .cons k v tl => do
    let v' ← resolveAllOfRefs fuel ctx univ v
    let tl' ← resolvePropsFuel fuel ctx univ tl
    return .cons k v' tl'

/-- The items and additionalProperties recursion of resolveAllOfRefs,
lines 223-232. -/
def resolveOptFuel : Nat → String → Universe → OptFrag → Except String OptFrag
  | 0, _, _, _ => .error "out of fuel"
  | _ + 1, _, _, .none => .ok .none
  | fuel + 1, ctx, univ, .some f => do
    let f' ← resolveAllOfRefs fuel ctx univ f
    return .some f'

end

/-- Path steps through the structural fields of a fragment, mirroring the
positions resolveAllOfRefs and convertRefs recurse into. -/
inductive FStep where
  | prop (name : String)
  | items
  | addProps
  | allOfIdx (i : Nat)
deriving DecidableEq

/-- Whether a step descends into an allOf entry. -/
def isAllOfStep : FStep → Bool
  | .allOfIdx _ => true
  | _ => false

/-- A path that never descends into an allOf entry: it addresses positions in
properties values, items and additionalProperties only. -/
def noAllOfSteps (p : List FStep) : Bool :=
  p.all (fun s => !isAllOfStep s)

/-- Walk a fragment along a path of structural steps. -/
def followF : Fragment → List FStep → Option Fragment
  | f, [] => some f
  | f, .prop name :: p =>
    (match lookupProps (fragProps f) name with
     | Option.some v => followF v p
     | Option.none => none)
  | f, .items :: p =>
    (match fragItems f with
     | .some v => followF v p
     | .none => none)
  | f, .addProps :: p =>
    (match fragAddProps f with
     | .some v => followF v p
     | .none => none)
  | f, .allOfIdx i :: p =>
    (match flGet (fragAllOf f) i with
     | Option.some v => followF v p
     | Option.none => none)

/-- The reference held at the end of a path, when the path exists and the
fragment there carries one. -/
def refAtF (f : Fragment) (p : List FStep) : Option String :=
  (followF f p).bind fragRef

mutual

/-- Whether a fragment tree contains no allOf entry carrying a non-empty
reference, at any nesting depth, including allOf lists nested inside
properties values, items and additionalProperties. -/
def noRefAllOf : Fragment → Bool
  | .mk _ _ props items addProps allOf =>
    noRefAllOfList allOf && noRefAllOfProps props &&
      noRefAllOfOpt items && noRefAllOfOpt addProps

/-- Every entry of the allOf list is reference-free at its own top level and
contains no referencing allOf entry deeper down. -/
def noRefAllOfList : FragList → Bool
  | .nil => true
  | .cons e tl => !nonEmptyRef e && noRefAllOf e && noRefAllOfList tl

/-- noRefAllOf over a properties map. -/
def noRefAllOfProps : Props → Bool
  | .nil => true
  | .cons _ v tl => noRefAllOf v && noRefAllOfProps tl

/-- noRefAllOf over an optional nested fragment. -/
def noRefAllOfOpt : OptFrag → Bool
  | .none => true
  | .some f => noRefAllOf f

end

/-- Whether no fragment of the universe carries a top-level reference: such a
universe contains no alias schemas (schemas that are nothing but a reference,
as produced for Go type aliases). -/
def univRefFree (univ : Universe) : Bool :=
  match univ with
  | [] => true
  | (_, f) :: tl => !nonEmptyRef f && univRefFree tl

/-! Lemmas about the sanitizer field pass. -/

theorem sanFields_cons (hr : Bool) (k : String) (v : JValue) (tl : JObj) :
    sanFields hr (.cons k v tl) =
      if droppedKey hr k then sanFields hr tl
      else .cons k (sanValueAt k v) (sanFields hr tl) := by
  simp only [sanFields, sanValueAt]

theorem lookupKey_sanFields_dropped (hr : Bool) (key : String)
    (hk : droppedKey hr key = true) :
    (m : JObj) → lookupKey (sanFields hr m) key = none
  | .nil => rfl
  | .cons k v tl => by
    rw [sanFields_cons]
    by_cases hd : droppedKey hr k
    · rw [if_pos hd]
      exact lookupKey_sanFields_dropped hr key hk tl
    · rw [if_neg hd]
      have hne : k ≠ key := by
        intro h
        rw [h, hk] at hd
        exact hd rfl
      rw [lookupKey, if_neg hne]
      exact lookupKey_sanFields_dropped hr key hk tl

theorem lookupKey_sanFields_kept (hr : Bool) (key : String)
    (hk : droppedKey hr key = false) :
    (m : JObj) → lookupKey (sanFields hr m) key = (lookupKey m key).map (sanValueAt key)
  | .nil => rfl
  | .cons k v tl => by
    rw [sanFields_cons]
    by_cases hd : droppedKey hr k
    · rw [if_pos hd]
      have hne : k ≠ key := by
        intro h
        rw [h, hk] at hd
        cases hd
      rw [lookupKey, if_neg hne]
      exact lookupKey_sanFields_kept hr key hk tl
    · rw [if_neg hd]
      by_cases he : k = key
      · subst he
        rw [lookupKey, if_pos rfl, lookupKey, if_pos rfl, Option.map_some']
      · rw [lookupKey, if_neg he, lookupKey, if_neg he]
        exact lookupKey_sanFields_kept hr key hk tl

theorem droppedKey_ref (hr : Bool) : droppedKey hr ("$ref") = false := by
  cases hr <;> rfl

theorem sanValueAt_ref (v : JValue) : sanValueAt ("$ref") v = v := rfl

theorem hasRefKey_sanFields (hr : Bool) (m : JObj) :
    hasRefKey (sanFields hr m) = hasRefKey m := by
  rw [hasRefKey, hasRefKey, lookupKey_sanFields_kept hr ("$ref") (droppedKey_ref hr) m]
  cases lookupKey m ("$ref") <;> rfl

/-! Idempotence of the sanitizer. -/

mutual

theorem sanitize_idem : (v : JValue) → sanitize (sanitize v) = sanitize v
  | .null => rfl
  | .bool _ => rfl
  | .num _ => rfl
  | .str _ => rfl
  | .arr _ => rfl
  | .obj m => by
    rw [sanitize, sanitize, hasRefKey_sanFields, sanFields_idem (hasRefKey m) m]

theorem sanFields_idem (hr : Bool) : (m : JObj) →
    sanFields hr (sanFields hr m) = sanFields hr m
  | .nil => rfl
  | .cons k v tl => by
    rw [sanFields_cons]
    by_cases hd : droppedKey hr k
    · rw [if_pos hd]
      exact sanFields_idem hr tl
    · rw [if_neg hd, sanFields_cons, if_neg hd, sanFields_idem hr tl]
      congr 1
      by_cases hp : k = "properties"
      · subst hp
        rw [sanValueAt, if_pos rfl, sanValueAt, if_pos rfl, sanProps_idem v]
      · by_cases hi : k = "items"
        · subst hi
          rw [sanValueAt, sanValueAt]
          norm_num
          exact sanitize_idem v
        · by_cases ha : k = "additionalProperties"
          · subst ha
            rw [sanValueAt, sanValueAt]
            norm_num
            exact sanitize_idem v
          · by_cases ho : k = "allOf"
            · subst ho
              rw [sanValueAt, sanValueAt]
              norm_num
              exact sanAllOf_idem v
            · rw [sanValueAt, if_neg hp, if_neg hi, if_neg ha, if_neg ho,
                sanValueAt, if_neg hp, if_neg hi, if_neg ha, if_neg ho]

theorem sanProps_idem : (v : JValue) → sanProps (sanProps v) = sanProps v
  | .null => rfl
  | .bool _ => rfl
  | .num _ => rfl
  | .str _ => rfl
  | .arr _ => rfl
  | .obj pm => by
    rw [sanProps, sanProps, sanPropsFields_idem pm]

theorem sanPropsFields_idem : (m : JObj) →
    sanPropsFields (sanPropsFields m) = sanPropsFields m
  | .nil => rfl
  | .cons k v tl => by
    rw [sanPropsFields, sanPropsFields, sanitize_idem v, sanPropsFields_idem tl]

theorem sanAllOf_idem : (v : JValue) → sanAllOf (sanAllOf v) = sanAllOf v
  | .null => rfl
  | .bool _ => rfl
  | .num _ => rfl
  | .str _ => rfl
  | .obj _ => rfl
  | .arr xs => by
    rw [sanAllOf, sanAllOf, sanAllOfList_idem xs]

theorem sanAllOfList_idem : (xs : JList) →
    sanAllOfList (sanAllOfList xs) = sanAllOfList xs
  | .nil => rfl
  | .cons v tl => by
    rw [sanAllOfList, sanAllOfList, sanitize_idem v, sanAllOfList_idem tl]

end

/-- C5: sanitization is idempotent. For every JSON value, in particular every
definition map sanitizeForOpenAPIV2 is applied to, applying the sanitizer
twice yields the same result as applying it once. -/
theorem c5_sanitize_idempotent (v : JValue) : sanitize (sanitize v) = sanitize v :=
  sanitize_idem v

/-! Commutation of the sanitizer with the structural walk. -/

theorem droppedKey_props (hr : Bool) : droppedKey hr ("properties") = false := by
  cases hr <;> rfl

theorem droppedKey_items (hr : Bool) : droppedKey hr ("items") = false := by
  cases hr <;> rfl

theorem droppedKey_addProps (hr : Bool) :
    droppedKey hr ("additionalProperties") = false := by
  cases hr <;> rfl

theorem droppedKey_allOf (hr : Bool) : droppedKey hr ("allOf") = false := by
  cases hr <;> rfl

theorem lookupKey_sanPropsFields (name : String) : (pm : JObj) →
    lookupKey (sanPropsFields pm) name = (lookupKey pm name).map sanitize
  | .nil => rfl
  | .cons k v tl => by
    rw [sanPropsFields]
    by_cases he : k = name
    · rw [lookupKey, if_pos he, lookupKey, if_pos he, Option.map_some']
    · rw [lookupKey, if_neg he, lookupKey, if_neg he]
      exact lookupKey_sanPropsFields name tl

theorem jlistGet_sanAllOfList : (xs : JList) → (i : Nat) →
    jlistGet (sanAllOfList xs) i = (jlistGet xs i).map sanitize
  | .nil, _ => rfl
  | .cons v _, 0 => rfl
  | .cons _ tl, n + 1 => jlistGet_sanAllOfList tl n

theorem follow_sanitize : (p : List JStep) → (v : JValue) →
    follow (sanitize v) p = (follow v p).map sanitize
  | [], v => by rw [follow, follow, Option.map_some']
  | .prop name :: p, .null => rfl
  | .prop name :: p, .bool _ => rfl
  | .prop name :: p, .num _ => rfl
  | .prop name :: p, .str _ => rfl
  | .prop name :: p, .arr _ => rfl
  | .prop name :: p, .obj m => by
    rw [sanitize]
    simp only [follow]
    rw [lookupKey_sanFields_kept _ _ (droppedKey_props _) m]
    cases hq : lookupKey m ("properties") with
    | none => rfl
    | some w =>
      simp only [Option.map_some']
      have hv : sanValueAt ("properties") w = sanProps w := rfl
      rw [hv]
      cases w with
      | obj pm =>
        simp only [sanProps]
        rw [lookupKey_sanPropsFields name pm]
        cases lookupKey pm name with
        | none => rfl
        | some u =>
          dsimp only [Option.map_some']
          exact follow_sanitize p u
      | null => rfl
      | bool _ => rfl
      | num _ => rfl
      | str _ => rfl
      | arr _ => rfl
  | .items :: p, .null => rfl
  | .items :: p, .bool _ => rfl
  | .items :: p, .num _ => rfl
  | .items :: p, .str _ => rfl
  | .items :: p, .arr _ => rfl
  | .items :: p, .obj m => by
    rw [sanitize]
    simp only [follow]
    rw [lookupKey_sanFields_kept _ _ (droppedKey_items _) m]
    cases hq : lookupKey m ("items") with
    | none => rfl
    | some w =>
      simp only [Option.map_some']
      have hv : sanValueAt ("items") w = sanitize w := rfl
      rw [hv]
      exact follow_sanitize p w
  | .addProps :: p, .null => rfl
  | .addProps :: p, .bool _ => rfl
  | .addProps :: p, .num _ => rfl
  | .addProps :: p, .str _ => rfl
  | .addProps :: p, .arr _ => rfl
  | .addProps :: p, .obj m => by
    rw [sanitize]
    simp only [follow]
    rw [lookupKey_sanFields_kept _ _ (droppedKey_addProps _) m]
    cases hq : lookupKey m ("additionalProperties") with
    | none => rfl
    | some w =>
      simp only [Option.map_some']
      have hv : sanValueAt ("additionalProperties") w = sanitize w := rfl
      rw [hv]
      exact follow_sanitize p w
  | .allOfIdx i :: p, .null => rfl
  | .allOfIdx i :: p, .bool _ => rfl
  | .allOfIdx i :: p, .num _ => rfl
  | .allOfIdx i :: p, .str _ => rfl
  | .allOfIdx i :: p, .arr _ => rfl
  | .allOfIdx i :: p, .obj m => by
    rw [sanitize]
    simp only [follow]
    rw [lookupKey_sanFields_kept _ _ (droppedKey_allOf _) m]
    cases hq : lookupKey m ("allOf") with
    | none => rfl
    | some w =>
      simp only [Option.map_some']
      have hv : sanValueAt ("allOf") w = sanAllOf w := rfl
      rw [hv]
      cases w with
      | arr xs =>
        simp only [sanAllOf]
        rw [jlistGet_sanAllOfList xs i]
        cases jlistGet xs i with
        | none => rfl
        | some u =>
          dsimp only [Option.map_some']
          exact follow_sanitize p u
      | null => rfl
      | bool _ => rfl
      | num _ => rfl
      | str _ => rfl
      | obj _ => rfl

theorem vendorKey_ne (k t : String) (hk : isVendorKey k = true)
    (ht : isVendorKey t = false) : k ≠ t := by
  intro h
  rw [h, ht] at hk
  cases hk

theorem droppedKey_vendor (hr : Bool) (k : String) (hk : isVendorKey k = true) :
    droppedKey hr k = false := by
  have h1 : k ≠ "nullable" := vendorKey_ne k _ hk rfl
  have h2 : k ≠ "anyOf" := vendorKey_ne k _ hk rfl
  have h3 : k ≠ "oneOf" := vendorKey_ne k _ hk rfl
  have h4 : k ≠ "not" := vendorKey_ne k _ hk rfl
  have h5 : k ≠ "type" := vendorKey_ne k _ hk rfl
  have h6 : k ≠ "format" := vendorKey_ne k _ hk rfl
  simp [droppedKey, h1, h2, h3, h4, h5, h6]

theorem sanValueAt_vendor (k : String) (hk : isVendorKey k = true) (w : JValue) :
    sanValueAt k w = w := by
  have h1 : k ≠ "properties" := vendorKey_ne k _ hk rfl
  have h2 : k ≠ "items" := vendorKey_ne k _ hk rfl
  have h3 : k ≠ "additionalProperties" := vendorKey_ne k _ hk rfl
  have h4 : k ≠ "allOf" := vendorKey_ne k _ hk rfl
  simp [sanValueAt, h1, h2, h3, h4]

theorem droppedKey_nullable (hr : Bool) : droppedKey hr ("nullable") = true := rfl

theorem droppedKey_anyOf (hr : Bool) : droppedKey hr ("anyOf") = true := rfl

theorem droppedKey_oneOf (hr : Bool) : droppedKey hr ("oneOf") = true := rfl

theorem droppedKey_not (hr : Bool) : droppedKey hr ("not") = true := rfl

/-- C6: sanitization removes nullable, anyOf, oneOf and not from every
definition and from every nested fragment reachable through properties,
items, additionalProperties and allOf, removes type and format from every
such fragment that carries a ref marker, and preserves every vendor
extension field verbatim at every level. The first part states that every
object reachable from a sanitized value along structural steps is free of
the stripped fields; the second that a vendor-marked field of any reachable
object of the input survives, with its exact value, at the same path of the
sanitized output. -/
theorem c6_sanitize_strips_and_preserves_vendor :
    (∀ (v : JValue) (p : List JStep) (m : JObj),
      follow (sanitize v) p = some (.obj m) →
      lookupKey m ("nullable") = none ∧ lookupKey m ("anyOf") = none ∧
        lookupKey m ("oneOf") = none ∧ lookupKey m ("not") = none ∧
        (hasRefKey m = true →
          lookupKey m ("type") = none ∧ lookupKey m ("format") = none)) ∧
    (∀ (v : JValue) (p : List JStep) (m : JObj) (k : String) (w : JValue),
      follow v p = some (.obj m) → isVendorKey k = true → lookupKey m k = some w →
      ∃ m', follow (sanitize v) p = some (.obj m') ∧ lookupKey m' k = some w) := by
  constructor
  · intro v p m h
    rw [follow_sanitize p v] at h
    cases hu : follow v p with
    | none => rw [hu] at h; cases h
    | some u =>
      rw [hu, Option.map_some'] at h
      have hsan : sanitize u = .obj m := Option.some.inj h
      cases u with
      | null => cases hsan
      | bool _ => cases hsan
      | num _ => cases hsan
      | str _ => cases hsan
      | arr _ => cases hsan
      | obj m0 =>
        rw [sanitize] at hsan
        have hm : m = sanFields (hasRefKey m0) m0 := (JValue.obj.inj hsan).symm
        subst hm
        refine ⟨lookupKey_sanFields_dropped _ _ (droppedKey_nullable _) m0,
          lookupKey_sanFields_dropped _ _ (droppedKey_anyOf _) m0,
          lookupKey_sanFields_dropped _ _ (droppedKey_oneOf _) m0,
          lookupKey_sanFields_dropped _ _ (droppedKey_not _) m0, ?_⟩
        intro hr
        rw [hasRefKey_sanFields] at hr
        rw [hr]
        exact ⟨lookupKey_sanFields_dropped true ("type") (by rfl) m0,
          lookupKey_sanFields_dropped true ("format") (by rfl) m0⟩
  · intro v p m k w h hk hkv
    refine ⟨sanFields (hasRefKey m) m, ?_, ?_⟩
    · rw [follow_sanitize p v, h, Option.map_some', sanitize]
    · rw [lookupKey_sanFields_kept _ _ (droppedKey_vendor _ k hk) m, hkv,
        Option.map_some', sanValueAt_vendor k hk w]

/-- Witness for C6: a schema with a nullable marker, a vendor extension and a
property whose body carries a ref marker next to a type field. After
sanitization the property body has lost the stripped fields while the vendor
extension survives verbatim at the top level. -/
theorem c6_witness :
    (lookupKey (.cons "$ref" (.str "#/definitions/X") .nil) ("nullable") = none ∧
      lookupKey (.cons "$ref" (.str "#/definitions/X") .nil) ("anyOf") = none ∧
      lookupKey (.cons "$ref" (.str "#/definitions/X") .nil) ("oneOf") = none ∧
      lookupKey (.cons "$ref" (.str "#/definitions/X") .nil) ("not") = none ∧
      (hasRefKey (.cons "$ref" (.str "#/definitions/X") .nil) = true →
        lookupKey (.cons "$ref" (.str "#/definitions/X") .nil) ("type") = none ∧
        lookupKey (.cons "$ref" (.str "#/definitions/X") .nil) ("format") = none)) ∧
    (∃ m', follow
        (sanitize (.obj (.cons "nullable" (.bool true)
          (.cons "x-kubernetes-map-type" (.str "atomic")
            (.cons "properties"
              (.obj (.cons "a"
                (.obj (.cons "$ref" (.str "#/definitions/X")
                  (.cons "type" (.str "object") .nil))) .nil)) .nil))))) [] =
        some (.obj m') ∧
      lookupKey m' ("x-kubernetes-map-type") = some (.str "atomic")) := by
  constructor
  · exact c6_sanitize_strips_and_preserves_vendor.1
      (.obj (.cons "nullable" (.bool true)
        (.cons "x-kubernetes-map-type" (.str "atomic")
          (.cons "properties"
            (.obj (.cons "a"
              (.obj (.cons "$ref" (.str "#/definitions/X")
                (.cons "type" (.str "object") .nil))) .nil)) .nil))))
      [.prop "a"] (.cons "$ref" (.str "#/definitions/X") .nil) (by rfl)
  · exact c6_sanitize_strips_and_preserves_vendor.2
      (.obj (.cons "nullable" (.bool true)
        (.cons "x-kubernetes-map-type" (.str "atomic")
          (.cons "properties"
            (.obj (.cons "a"
              (.obj (.cons "$ref" (.str "#/definitions/X")
                (.cons "type" (.str "object") .nil))) .nil)) .nil))))
      [] _ _ (.str "atomic") (by rfl) (by rfl) (by rfl)

/-! Assembly of the definitions map: collisions and stage order. -/

theorem mapObjSan_upsert (k : String) (v : JValue) : (m : JObj) →
    mapObjSan (upsert m k v) = upsert (mapObjSan m) k (sanitize v)
  | .nil => rfl
  | .cons k0 w tl => by
    by_cases he : k0 = k
    · rw [upsert, if_pos he, mapObjSan, mapObjSan, upsert, if_pos he]
    · rw [upsert, if_neg he, mapObjSan, mapObjSan, upsert, if_neg he,
        mapObjSan_upsert k v tl]

theorem assemble_foldl_san (toKey : String → String) :
    (l : List ((String × String) × JValue)) → (acc : JObj) →
    l.foldl (fun acc ts => upsert acc (identKey toKey ts.1) (sanitize ts.2)) (mapObjSan acc) =
      mapObjSan (l.foldl (fun acc ts => upsert acc (identKey toKey ts.1) ts.2) acc)
  | [], _ => rfl
  | ts :: tl, acc => by
    rw [List.foldl_cons, List.foldl_cons, ← mapObjSan_upsert (identKey toKey ts.1) ts.2 acc,
      assemble_foldl_san toKey tl (upsert acc (identKey toKey ts.1) ts.2)]

theorem assembleDefinitions_eq_san_raw (toKey : String → String)
    (schemata : List ((String × String) × JValue)) :
    assembleDefinitions toKey schemata = mapObjSan (assembleRaw toKey schemata) := by
  rw [assembleDefinitions, assembleRaw]
  exact assemble_foldl_san toKey schemata .nil

/-- C1 (amended): the definitions-assembly loop performs no key-collision
detection. When two distinct type identifiers map to the same external key
under the name-friendliness transform, the later-processed definition
silently overwrites the earlier one in the definitions map and assembly
completes without any failure. -/
theorem c1_collision_silently_overwrites (toKey : String → String)
    (id1 id2 : String × String) (s1 s2 : JValue) (hne : id1 ≠ id2)
    (hcol : identKey toKey id1 = identKey toKey id2) :
    lookupKey (assembleDefinitions toKey [(id1, s1), (id2, s2)])
      (identKey toKey id1) = some (sanitize s2) := by
  simp only [assembleDefinitions, List.foldl]
  rw [← hcol]
  simp [upsert, lookupKey]

/-- Witness for the amended C1 at a constant transform and two distinct
identifiers. -/
theorem c1_collision_witness :
    lookupKey
      (assembleDefinitions (fun _ => "k")
        [(("p", "A"), .obj (.cons "type" (.str "string") .nil)),
          (("p", "B"), .obj (.cons "type" (.str "integer") .nil))]
        )
      (identKey (fun _ => "k") ("p", "A")) =
      some (sanitize (.obj (.cons "type" (.str "integer") .nil))) :=
  c1_collision_silently_overwrites (fun _ => "k") ("p", "A") ("p", "B")
    (.obj (.cons "type" (.str "string") .nil))
    (.obj (.cons "type" (.str "integer") .nil)) (by decide) rfl

/-- Counterexample to C1 as stated: two distinct type identifiers collide
under a non-injective transform, yet assembly returns a definitions map (it
has no failure path at all) containing only the second body; the first
definition has been silently dropped, where the claim requires the whole
generation to fail with an AmbiguousDefinitionKey error. -/
theorem c1_counterexample :
    (("p", "A") : String × String) ≠ ("p", "B") ∧
    identKey (fun _ => "k") ("p", "A") = identKey (fun _ => "k") ("p", "B") ∧
    assembleDefinitions (fun _ => "k")
        [(("p", "A"), .obj (.cons "type" (.str "string") .nil)),
          (("p", "B"), .obj (.cons "type" (.str "integer") .nil))] =
      .cons "k" (.obj (.cons "type" (.str "integer") .nil)) .nil :=
  ⟨by decide, rfl, rfl⟩

/-- C2 (amended): in buildOpenAPISchema the sanitizer runs per definition
inside the assembly loop, before the alias-resolution pass; the final
definitions map is the alias resolution applied to the map of sanitized
definitions, not the sanitization of the alias-resolved map. -/
theorem c2_sanitize_runs_before_alias_resolution (toKey : String → String)
    (schemata : List ((String × String) × JValue)) :
    buildFinalDefinitions toKey schemata =
      resolveRefDefinitions (mapObjSan (assembleRaw toKey schemata)) := by
  rw [buildFinalDefinitions, assembleDefinitions_eq_san_raw]

/-- Counterexample to C2 as stated: an alias definition carrying a type field
next to its reference. The pipeline (sanitize, then resolve aliases) first
strips the type sibling because it sits next to a ref marker, so the alias
collapses to the bare target; the order the claim states (resolve aliases,
then sanitize) would re-apply the type extra over the target and keep it.
The two final maps differ at the alias key. -/
theorem c2_counterexample :
    lookupKey
        (buildFinalDefinitions (fun s => s)
          [(("p", "A"),
              .obj (.cons "$ref" (.str "#/definitions/p.X")
                (.cons "type" (.str "object") .nil))),
            (("p", "X"),
              .obj (.cons "type" (.str "string")
                (.cons "nullable" (.bool true) .nil)))])
        ("p.A") =
      some (.obj (.cons "type" (.str "string") .nil)) ∧
    lookupKey
        (specSanitizeLastDefinitions (fun s => s)
          [(("p", "A"),
              .obj (.cons "$ref" (.str "#/definitions/p.X")
                (.cons "type" (.str "object") .nil))),
            (("p", "X"),
              .obj (.cons "type" (.str "string")
                (.cons "nullable" (.bool true) .nil)))])
        ("p.A") =
      some (.obj (.cons "type" (.str "object") .nil)) ∧
    buildFinalDefinitions (fun s => s)
        [(("p", "A"),
            .obj (.cons "$ref" (.str "#/definitions/p.X")
              (.cons "type" (.str "object") .nil))),
          (("p", "X"),
            .obj (.cons "type" (.str "string")
              (.cons "nullable" (.bool true) .nil)))] ≠
      specSanitizeLastDefinitions (fun s => s)
        [(("p", "A"),
            .obj (.cons "$ref" (.str "#/definitions/p.X")
              (.cons "type" (.str "object") .nil))),
          (("p", "X"),
            .obj (.cons "type" (.str "string")
              (.cons "nullable" (.bool true) .nil)))] := by
  refine ⟨rfl, rfl, fun heq => ?_⟩
  have h1 : lookupKey
      (buildFinalDefinitions (fun s => s)
        [(("p", "A"),
            .obj (.cons "$ref" (.str "#/definitions/p.X")
              (.cons "type" (.str "object") .nil))),
          (("p", "X"),
            .obj (.cons "type" (.str "string")
              (.cons "nullable" (.bool true) .nil)))])
      ("p.A") = some (.obj (.cons "type" (.str "string") .nil)) := rfl
  rw [heq] at h1
  have h2 : lookupKey
      (specSanitizeLastDefinitions (fun s => s)
        [(("p", "A"),
            .obj (.cons "$ref" (.str "#/definitions/p.X")
              (.cons "type" (.str "object") .nil))),
          (("p", "X"),
            .obj (.cons "type" (.str "string")
              (.cons "nullable" (.bool true) .nil)))])
      ("p.A") = some (.obj (.cons "type" (.str "object") .nil)) := rfl
  rw [h1] at h2
  simp at h2

/-! The reference-format converter. -/

theorem convertRefOpt_eq_map (toKey : String → String) (ctx : String) :
    (o : Option String) → convertRefOpt toKey ctx o = o.map (convertRefStr toKey ctx)
  | Option.none => rfl
  | Option.some r => by
    by_cases hr : r = ""
    · subst hr
      rfl
    · rw [convertRefOpt, if_neg hr, Option.map_some', convertRefStr]
      cases hp : refParts r with
      | ok pr => cases pr with | mk a b => rfl
      | error e => rfl

theorem fragRef_convertRefs (toKey : String → String) (ctx : String) (f : Fragment) :
    fragRef (convertRefs toKey ctx f) = (fragRef f).map (convertRefStr toKey ctx) := by
  cases f with
  | mk ref typ pr it ap ao =>
    rw [convertRefs, fragRef, fragRef, convertRefOpt_eq_map]

theorem lookupProps_convertRefsProps (toKey : String → String) (ctx : String)
    (name : String) : (pr : Props) →
    lookupProps (convertRefsProps toKey ctx pr) name =
      (lookupProps pr name).map (convertRefs toKey ctx)
  | .nil => rfl
  | .cons k v tl => by
    by_cases he : k = name
    · rw [convertRefsProps, lookupProps, if_pos he, lookupProps, if_pos he,
        Option.map_some']
    · rw [convertRefsProps, lookupProps, if_neg he, lookupProps, if_neg he,
        lookupProps_convertRefsProps toKey ctx name tl]

theorem flGet_convertRefsList (toKey : String → String) (ctx : String) :
    (ao : FragList) → (i : Nat) →
    flGet (convertRefsList toKey ctx ao) i = (flGet ao i).map (convertRefs toKey ctx)
  | .nil, _ => rfl
  | .cons v _, 0 => rfl
  | .cons _ tl, n + 1 => flGet_convertRefsList toKey ctx tl n

theorem followF_convertRefs (toKey : String → String) (ctx : String) :
    (p : List FStep) → (f : Fragment) →
    followF (convertRefs toKey ctx f) p = (followF f p).map (convertRefs toKey ctx)
  | [], f => by rw [followF, followF, Option.map_some']
  | .prop name :: p, f => by
    cases f with
    | mk ref typ pr it ap ao =>
      rw [convertRefs, followF, followF]
      dsimp only [fragProps]
      rw [lookupProps_convertRefsProps]
      cases lookupProps pr name with
      | none => rfl
      | some v =>
        simp only [Option.map_some']
        exact followF_convertRefs toKey ctx p v
  | .items :: p, f => by
    cases f with
    | mk ref typ pr it ap ao =>
      rw [convertRefs, followF, followF]
      dsimp only [fragItems]
      cases it with
      | none => rfl
      | some v =>
        simp only [convertRefsOpt]
        exact followF_convertRefs toKey ctx p v
  | .addProps :: p, f => by
    cases f with
    | mk ref typ pr it ap ao =>
      rw [convertRefs, followF, followF]
      dsimp only [fragAddProps]
      cases ap with
      | none => rfl
      | some v =>
        simp only [convertRefsOpt]
        exact followF_convertRefs toKey ctx p v
  | .allOfIdx i :: p, f => by
    cases f with
    | mk ref typ pr it ap ao =>
      rw [convertRefs, followF, followF]
      dsimp only [fragAllOf]
      rw [flGet_convertRefsList]
      cases flGet ao i with
      | none => rfl
      | some v =>
        simp only [Option.map_some']
        exact followF_convertRefs toKey ctx p v

/-- C3 (amended): the reference-format converter rewrites every parseable
reference held in a ref field anywhere in the fragment tree (properties
values, allOf entries, items, additionalProperties) into the external
addressing scheme, substituting the owning context package path when the
reference omits one; a reference string that fails to parse is silently left
unchanged, and the conversion itself has no failure path. The reference at
every path of the converted tree is exactly convertRefStr applied to the
reference at the same path of the input, and convertRefStr returns an
unparseable reference verbatim. -/
theorem c3_convertRefs_rewrites_parseable_refs (toKey : String → String)
    (ctx : String) (f : Fragment) (p : List FStep) :
    refAtF (convertRefs toKey ctx f) p = (refAtF f p).map (convertRefStr toKey ctx) := by
  rw [refAtF, refAtF, followF_convertRefs toKey ctx p f]
  cases followF f p with
  | none => rfl
  | some u =>
    simp only [Option.map_some', Option.some_bind]
    rw [fragRef_convertRefs]

/-- Counterexample to C3 as stated: a fragment whose reference fails to
parse. The converter (a total function, like the void Go function, with no
error return anywhere on its call path) completes and leaves the reference
byte-for-byte unchanged, still in the internal format, where the claim
requires a fatal MalformedReference error. -/
theorem c3_counterexample :
    convertRefs (fun s => s) "ctx"
        (.mk (Option.some "badref") Option.none .nil .none .none .nil) =
      .mk (Option.some "badref") Option.none .nil .none .none .nil ∧
    refParts "badref" = .error ("failed to parse ref " ++ "badref") :=
  ⟨rfl, rfl⟩

/-! Inversion of the allOf resolver on successful runs. -/

theorem ebind_ok {α β : Type} (a : α) (f : α → Except String β) :
    (Except.ok a >>= f) = f a := rfl

theorem ebind_err {α β : Type} (e : String) (f : α → Except String β) :
    ((Except.error e : Except String α) >>= f) = Except.error e := rfl

theorem resolveAllOfRefs_ok_inv {fuel : Nat} {ctx : String} {univ : Universe}
    {ref typ : Option String} {pr : Props} {it ap : OptFrag} {ao : FragList}
    {s' : Fragment}
    (h : resolveAllOfRefs (fuel + 1) ctx univ (.mk ref typ pr it ap ao) = .ok s') :
    ∃ ao' pr' it' ap',
      resolveAllOfList fuel ctx univ ao = .ok ao' ∧
      resolvePropsFuel fuel ctx univ pr = .ok pr' ∧
      resolveOptFuel fuel ctx univ it = .ok it' ∧
      resolveOptFuel fuel ctx univ ap = .ok ap' ∧
      s' = .mk ref typ pr' it' ap' ao' := by
  rw [resolveAllOfRefs] at h
  cases h1 : resolveAllOfList fuel ctx univ ao with
  | error e => rw [h1, ebind_err] at h; cases h
  | ok ao' =>
    rw [h1, ebind_ok] at h
    cases h2 : resolvePropsFuel fuel ctx univ pr with
    | error e => rw [h2, ebind_err] at h; cases h
    | ok pr' =>
      rw [h2, ebind_ok] at h
      cases h3 : resolveOptFuel fuel ctx univ it with
      | error e => rw [h3, ebind_err] at h; cases h
      | ok it' =>
        rw [h3, ebind_ok] at h
        cases h4 : resolveOptFuel fuel ctx univ ap with
        | error e => rw [h4, ebind_err] at h; cases h
        | ok ap' =>
          rw [h4, ebind_ok] at h
          exact ⟨ao', pr', it', ap', rfl, rfl, rfl, rfl, (Except.ok.inj h).symm⟩

theorem resolveAllOfList_nil_inv {fuel : Nat} {ctx : String} {univ : Universe}
    {ao' : FragList}
    (h : resolveAllOfList (fuel + 1) ctx univ .nil = .ok ao') : ao' = .nil :=
  (Except.ok.inj h).symm

theorem resolveAllOfList_cons_inv {fuel : Nat} {ctx : String} {univ : Universe}
    {e : Fragment} {tl : FragList} {ao' : FragList}
    (h : resolveAllOfList (fuel + 1) ctx univ (.cons e tl) = .ok ao') :
    ∃ e' tl',
      resolveEntryFuel fuel ctx univ e = .ok e' ∧
      resolveAllOfList fuel ctx univ tl = .ok tl' ∧
      ao' = .cons e' tl' := by
  rw [resolveAllOfList] at h
  cases h1 : resolveEntryFuel fuel ctx univ e with
  | error er => rw [h1, ebind_err] at h; cases h
  | ok e' =>
    rw [h1, ebind_ok] at h
    cases h2 : resolveAllOfList fuel ctx univ tl with
    | error er => rw [h2, ebind_err] at h; cases h
    | ok tl' =>
      rw [h2, ebind_ok] at h
      exact ⟨e', tl', rfl, rfl, (Except.ok.inj h).symm⟩

theorem resolvePropsFuel_nil_inv {fuel : Nat} {ctx : String} {univ : Universe}
    {pr' : Props}
    (h : resolvePropsFuel (fuel + 1) ctx univ .nil = .ok pr') : pr' = .nil :=
  (Except.ok.inj h).symm

theorem resolvePropsFuel_cons_inv {fuel : Nat} {ctx : String} {univ : Universe}
    {k : String} {v : Fragment} {tl : Props} {pr' : Props}
    (h : resolvePropsFuel (fuel + 1) ctx univ (.cons k v tl) = .ok pr') :
    ∃ v' tl',
      resolveAllOfRefs fuel ctx univ v = .ok v' ∧
      resolvePropsFuel fuel ctx univ tl = .ok tl' ∧
      pr' = .cons k v' tl' := by
  rw [resolvePropsFuel] at h
  cases h1 : resolveAllOfRefs fuel ctx univ v with
  | error er => rw [h1, ebind_err] at h; cases h
  | ok v' =>
    rw [h1, ebind_ok] at h
    cases h2 : resolvePropsFuel fuel ctx univ tl with
    | error er => rw [h2, ebind_err] at h; cases h
    | ok tl' =>
      rw [h2, ebind_ok] at h
      exact ⟨v', tl', rfl, rfl, (Except.ok.inj h).symm⟩

theorem resolveOptFuel_inv {fuel : Nat} {ctx : String} {univ : Universe}
    {it it' : OptFrag}
    (h : resolveOptFuel (fuel + 1) ctx univ it = .ok it') :
    (it = .none ∧ it' = .none) ∨
      ∃ f f', it = .some f ∧ resolveAllOfRefs fuel ctx univ f = .ok f' ∧ it' = .some f' := by
  cases it with
  | none =>
    left
    exact ⟨rfl, (Except.ok.inj h).symm⟩
  | some f =>
    right
    rw [resolveOptFuel] at h
    cases h1 : resolveAllOfRefs fuel ctx univ f with
    | error er => rw [h1, ebind_err] at h; cases h
    | ok f' =>
      rw [h1, ebind_ok] at h
      exact ⟨f, f', rfl, h1, (Except.ok.inj h).symm⟩

theorem resolve_ok_fragRef {fuel : Nat} {ctx : String} {univ : Universe}
    {s s' : Fragment}
    (h : resolveAllOfRefs fuel ctx univ s = .ok s') :
    fragRef s' = fragRef s ∧ fragTyp s' = fragTyp s := by
  cases fuel with
  | zero => rw [resolveAllOfRefs] at h; cases h
  | succ n =>
    cases s with
    | mk ref typ pr it ap ao =>
      obtain ⟨ao', pr', it', ap', _, _, _, _, hs⟩ := resolveAllOfRefs_ok_inv h
      subst hs
      exact ⟨rfl, rfl⟩

/-! Frame property of the allOf resolver: references outside allOf survive. -/

theorem resolveProps_lookup_none {ctx : String} {univ : Universe}
    (name : String) :
    (fuel : Nat) → (pr : Props) → ∀ {pr' : Props},
    resolvePropsFuel fuel ctx univ pr = .ok pr' →
    lookupProps pr name = none → lookupProps pr' name = none
  | 0, pr, pr', h, _ => by rw [resolvePropsFuel] at h; cases h
  | fuel + 1, .nil, pr', h, _ => by
    rw [resolvePropsFuel_nil_inv h, lookupProps]
  | fuel + 1, .cons k v tl, pr', h, hl => by
    obtain ⟨v', tl', hv, htl, hpr⟩ := resolvePropsFuel_cons_inv h
    subst hpr
    rw [lookupProps] at hl
    by_cases he : k = name
    · rw [if_pos he] at hl
      cases hl
    · rw [if_neg he] at hl
      rw [lookupProps, if_neg he]
      exact resolveProps_lookup_none name fuel tl htl hl

theorem resolveProps_lookup_some {ctx : String} {univ : Universe}
    (name : String) :
    (fuel : Nat) → (pr : Props) → ∀ {pr' : Props} {v : Fragment},
    resolvePropsFuel fuel ctx univ pr = .ok pr' →
    lookupProps pr name = some v →
    ∃ m v', resolveAllOfRefs m ctx univ v = .ok v' ∧ lookupProps pr' name = some v'
  | 0, pr, pr', v, h, _ => by rw [resolvePropsFuel] at h; cases h
  | fuel + 1, .nil, _, _, _, hl => by rw [lookupProps] at hl; cases hl
  | fuel + 1, .cons k w tl, pr', v, h, hl => by
    obtain ⟨w', tl', hw, htl, hpr⟩ := resolvePropsFuel_cons_inv h
    subst hpr
    rw [lookupProps] at hl
    by_cases he : k = name
    · rw [if_pos he] at hl
      have hv : w = v := Option.some.inj hl
      subst hv
      exact ⟨fuel, w', hw, by rw [lookupProps, if_pos he]⟩
    · rw [if_neg he] at hl
      obtain ⟨m, v', hv, hl'⟩ := resolveProps_lookup_some name fuel tl htl hl
      exact ⟨m, v', hv, by rw [lookupProps, if_neg he]; exact hl'⟩

theorem resolveOptFuel_inv' {fuel : Nat} {ctx : String} {univ : Universe}
    {it it' : OptFrag}
    (h : resolveOptFuel fuel ctx univ it = .ok it') :
    (it = .none ∧ it' = .none) ∨
      ∃ m f f', it = .some f ∧ resolveAllOfRefs m ctx univ f = .ok f' ∧
        it' = .some f' := by
  cases fuel with
  | zero => rw [resolveOptFuel] at h; cases h
  | succ n =>
    rcases resolveOptFuel_inv h with ⟨h1, h2⟩ | ⟨f, f', h1, h2, h3⟩
    · exact Or.inl ⟨h1, h2⟩
    · exact Or.inr ⟨n, f, f', h1, h2, h3⟩

theorem resolve_refAt_preserved :
    (p : List FStep) → noAllOfSteps p = true →
    ∀ (fuel : Nat) (ctx : String) (univ : Universe) (s s' : Fragment),
    resolveAllOfRefs fuel ctx univ s = .ok s' → refAtF s' p = refAtF s p
  | [], _, fuel, ctx, univ, s, s', h => by
    rw [refAtF, refAtF, followF, followF, Option.some_bind, Option.some_bind,
      (resolve_ok_fragRef h).1]
  | .prop name :: p, hp, fuel, ctx, univ, s, s', h => by
    have hp' : noAllOfSteps p = true := by
      simp [noAllOfSteps, List.all] at hp ⊢
      exact hp.2
    cases fuel with
    | zero => rw [resolveAllOfRefs] at h; cases h
    | succ n =>
      cases s with
      | mk ref typ pr it ap ao =>
        obtain ⟨ao', pr', it', ap', _, hpr, _, _, hs⟩ := resolveAllOfRefs_ok_inv h
        subst hs
        rw [refAtF, refAtF, followF, followF]
        dsimp only [fragProps]
        cases hl : lookupProps pr name with
        | none =>
          rw [resolveProps_lookup_none name n pr hpr hl]
        | some v =>
          obtain ⟨m, v', hv, hl'⟩ := resolveProps_lookup_some name n pr hpr hl
          rw [hl']
          exact resolve_refAt_preserved p hp' m ctx univ v v' hv
  | .items :: p, hp, fuel, ctx, univ, s, s', h => by
    have hp' : noAllOfSteps p = true := by
      simp [noAllOfSteps, List.all] at hp ⊢
      exact hp.2
    cases fuel with
    | zero => rw [resolveAllOfRefs] at h; cases h
    | succ n =>
      cases s with
      | mk ref typ pr it ap ao =>
        obtain ⟨ao', pr', it', ap', _, _, hit, _, hs⟩ := resolveAllOfRefs_ok_inv h
        subst hs
        rw [refAtF, refAtF, followF, followF]
        dsimp only [fragItems]
        rcases resolveOptFuel_inv' hit with ⟨h1, h2⟩ | ⟨m, f, f', h1, h2, h3⟩
        · rw [h1, h2]
        · rw [h1, h3]
          exact resolve_refAt_preserved p hp' m ctx univ f f' h2
  | .addProps :: p, hp, fuel, ctx, univ, s, s', h => by
    have hp' : noAllOfSteps p = true := by
      simp [noAllOfSteps, List.all] at hp ⊢
      exact hp.2
    cases fuel with
    | zero => rw [resolveAllOfRefs] at h; cases h
    | succ n =>
      cases s with
      | mk ref typ pr it ap ao =>
        obtain ⟨ao', pr', it', ap', _, _, _, hap, hs⟩ := resolveAllOfRefs_ok_inv h
        subst hs
        rw [refAtF, refAtF, followF, followF]
        dsimp only [fragAddProps]
        rcases resolveOptFuel_inv' hap with ⟨h1, h2⟩ | ⟨m, f, f', h1, h2, h3⟩
        · rw [h1, h2]
        · rw [h1, h3]
          exact resolve_refAt_preserved p hp' m ctx univ f f' h2
  | .allOfIdx i :: p, hp, _, _, _, _, _, _ => by
    simp [noAllOfSteps, List.all, isAllOfStep] at hp

/-- C8: the allOf resolver never modifies references outside allOf entries.
For every fragment on which resolution succeeds and every path built from
property, items and additionalProperties steps only, the reference held at
that path of the output is identical to the reference held at the same path
of the input. -/
theorem c8_resolve_preserves_nonAllOf_refs (fuel : Nat) (ctx : String)
    (univ : Universe) (s s' : Fragment) (p : List FStep)
    (hp : noAllOfSteps p = true)
    (h : resolveAllOfRefs fuel ctx univ s = .ok s') :
    refAtF s' p = refAtF s p :=
  resolve_refAt_preserved p hp fuel ctx univ s s' h

/-- Witness for C8: a fragment with a property whose body is a reference and
an allOf entry referencing the same type. Resolution replaces the allOf entry
but the reference inside the property value is unchanged. -/
theorem c8_witness :
    refAtF (.mk Option.none Option.none
        (.cons "a" (.mk (Option.some "#/definitions/B") Option.none .nil .none .none .nil) .nil)
        .none .none
        (.cons (.mk Option.none (Option.some "object") .nil .none .none .nil) .nil))
      [.prop "a"] =
    refAtF (.mk Option.none Option.none
        (.cons "a" (.mk (Option.some "#/definitions/B") Option.none .nil .none .none .nil) .nil)
        .none .none
        (.cons (.mk (Option.some "#/definitions/B") (Option.some "discarded") .nil .none .none .nil) .nil))
      [.prop "a"] :=
  c8_resolve_preserves_nonAllOf_refs 5 "p"
    [(("p", "B"), .mk Option.none (Option.some "object") .nil .none .none .nil)]
    (.mk Option.none Option.none
      (.cons "a" (.mk (Option.some "#/definitions/B") Option.none .nil .none .none .nil) .nil)
      .none .none
      (.cons (.mk (Option.some "#/definitions/B") (Option.some "discarded") .nil .none .none .nil) .nil))
    (.mk Option.none Option.none
      (.cons "a" (.mk (Option.some "#/definitions/B") Option.none .nil .none .none .nil) .nil)
      .none .none
      (.cons (.mk Option.none (Option.some "object") .nil .none .none .nil) .nil))
    [.prop "a"] (by rfl) (by rfl)

/-! Behaviour of the resolver on a single allOf entry. -/

/-- C10: when an allOf entry carries a non-empty reference, the resolver
replaces the entire entry with the recursively resolved deep copy of the
referenced fragment and discards every sibling field of the entry; an entry
without a non-empty reference is recursed into in place. Stated in three
parts: the result on a referencing entry depends only on its reference (so
two entries with the same reference and arbitrary different sibling fields
resolve identically); an entry without a non-empty reference is resolved in
place under the unchanged context; and on a referencing entry the result is
exactly the resolution of the referenced universe fragment under the
referenced package context. -/
theorem c10_allOf_entry_replacement :
    (∀ (fuel : Nat) (ctx : String) (univ : Universe) (r : String), r ≠ "" →
      ∀ e e', fragRef e = Option.some r → fragRef e' = Option.some r →
      resolveEntryFuel fuel ctx univ e = resolveEntryFuel fuel ctx univ e') ∧
    (∀ (fuel : Nat) (ctx : String) (univ : Universe) (e : Fragment),
      nonEmptyRef e = false →
      resolveEntryFuel (fuel + 1) ctx univ e = resolveAllOfRefs fuel ctx univ e) ∧
    (∀ (fuel : Nat) (ctx : String) (univ : Universe) (e : Fragment)
      (r typeName pkgPath : String) (t : Fragment),
      fragRef e = Option.some r → r ≠ "" →
      refParts r = .ok (typeName, pkgPath) →
      (pkgPath = "" ∨ pkgKnown univ pkgPath = true) →
      lookupUniv univ ((if pkgPath = "" then ctx else pkgPath), typeName) =
        Option.some t →
      resolveEntryFuel (fuel + 1) ctx univ e =
        resolveAllOfRefs fuel (if pkgPath = "" then ctx else pkgPath) univ t) := by
  refine ⟨?_, ?_, ?_⟩
  · intro fuel ctx univ r hr e e' he he'
    cases fuel with
    | zero => rfl
    | succ n =>
      have hne : nonEmptyRef e = true := by
        rw [nonEmptyRef, he]
        simp [hr]
      have hne' : nonEmptyRef e' = true := by
        rw [nonEmptyRef, he']
        simp [hr]
      rw [resolveEntryFuel, resolveEntryFuel, if_pos hne, if_pos hne', he, he']
  · intro fuel ctx univ e hne
    rw [resolveEntryFuel, if_neg (by rw [hne]; exact Bool.false_ne_true)]
  · intro fuel ctx univ e r typeName pkgPath t he hr hparse hpkg hlook
    have hne : nonEmptyRef e = true := by
      rw [nonEmptyRef, he]
      simp [hr]
    rw [resolveEntryFuel, if_pos hne, he]
    dsimp only
    rw [hparse]
    dsimp only
    have hcond : (decide (pkgPath ≠ "") && !pkgKnown univ pkgPath) = false := by
      rcases hpkg with h0 | hk
      · subst h0
        simp
      · rw [hk]
        simp
    rw [if_neg (by rw [hcond]; exact Bool.false_ne_true)]
    rw [hlook]

/-- Witness for C10 on concrete inputs: two allOf entries sharing a
reference but differing in their sibling scalar field and properties resolve
to the same result; a reference-free entry is resolved in place; and the
referencing entry resolves to the resolution of the referenced universe
fragment. -/
theorem c10_witness :
    resolveEntryFuel 3 "p" [(("p", "B"), .mk Option.none (Option.some "object") .nil .none .none .nil)]
        (.mk (Option.some "#/definitions/B") (Option.some "sibling") .nil .none .none .nil) =
      resolveEntryFuel 3 "p" [(("p", "B"), .mk Option.none (Option.some "object") .nil .none .none .nil)]
        (.mk (Option.some "#/definitions/B") Option.none
          (.cons "extra" (.mk Option.none Option.none .nil .none .none .nil) .nil) .none .none .nil) ∧
    resolveEntryFuel 3 "p" [(("p", "B"), .mk Option.none (Option.some "object") .nil .none .none .nil)]
        (.mk Option.none (Option.some "plain") .nil .none .none .nil) =
      resolveAllOfRefs 2 "p" [(("p", "B"), .mk Option.none (Option.some "object") .nil .none .none .nil)]
        (.mk Option.none (Option.some "plain") .nil .none .none .nil) ∧
    resolveEntryFuel 3 "p" [(("p", "B"), .mk Option.none (Option.some "object") .nil .none .none .nil)]
        (.mk (Option.some "#/definitions/B") (Option.some "sibling") .nil .none .none .nil) =
      resolveAllOfRefs 2 "p" [(("p", "B"), .mk Option.none (Option.some "object") .nil .none .none .nil)]
        (.mk Option.none (Option.some "object") .nil .none .none .nil) := by
  refine ⟨?_, ?_, ?_⟩
  · exact c10_allOf_entry_replacement.1 3 "p" _ "#/definitions/B" (by decide) _ _ rfl rfl
  · exact c10_allOf_entry_replacement.2.1 2 "p" _ _ rfl
  · exact c10_allOf_entry_replacement.2.2 2 "p" _ _ "#/definitions/B" "B" "" _ rfl
      (by decide) (by rfl) (Or.inl rfl) (by rfl)

/-! Completeness of allOf resolution over alias-free universes. -/

theorem nonEmptyRef_congr {a b : Fragment} (h : fragRef a = fragRef b) :
    nonEmptyRef a = nonEmptyRef b := by
  rw [nonEmptyRef, nonEmptyRef, h]

theorem lookupUniv_refFree :
    (univ : Universe) → univRefFree univ = true →
    ∀ (ident : String × String) (t : Fragment),
    lookupUniv univ ident = Option.some t → nonEmptyRef t = false
  | [], _, _, _, h => by rw [lookupUniv] at h; cases h
  | (i, f) :: tl, hu, ident, t, h => by
    rw [univRefFree] at hu
    have hu1 : nonEmptyRef f = false := by
      cases hb : nonEmptyRef f
      · rfl
      · rw [hb] at hu; simp at hu
    have hu2 : univRefFree tl = true := by
      cases hb : univRefFree tl
      · rw [hb] at hu; simp at hu
      · rfl
    rw [lookupUniv] at h
    by_cases he : i = ident
    · rw [if_pos he] at h
      rw [← Option.some.inj h]
      exact hu1
    · rw [if_neg he] at h
      exact lookupUniv_refFree tl hu2 ident t h

mutual

theorem noBare_main (univ : Universe) (hu : univRefFree univ = true) :
    (fuel : Nat) → ∀ (ctx : String) (s s' : Fragment),
    resolveAllOfRefs fuel ctx univ s = .ok s' → noRefAllOf s' = true
  | 0, _, _, _, h => by rw [resolveAllOfRefs] at h; cases h
  | fuel + 1, ctx, s, s', h => by
    cases s with
    | mk ref typ pr it ap ao =>
      obtain ⟨ao', pr', it', ap', hao, hpr, hit, hap, hs⟩ := resolveAllOfRefs_ok_inv h
      subst hs
      rw [noRefAllOf, noBare_list univ hu fuel ctx ao ao' hao,
        noBare_props univ hu fuel ctx pr pr' hpr,
        noBare_opt univ hu fuel ctx it it' hit,
        noBare_opt univ hu fuel ctx ap ap' hap]
      rfl

theorem noBare_list (univ : Universe) (hu : univRefFree univ = true) :
    (fuel : Nat) → ∀ (ctx : String) (ao ao' : FragList),
    resolveAllOfList fuel ctx univ ao = .ok ao' → noRefAllOfList ao' = true
  | 0, _, _, _, h => by rw [resolveAllOfList] at h; cases h
  | fuel + 1, ctx, .nil, ao', h => by
    rw [resolveAllOfList_nil_inv h, noRefAllOfList]
  | fuel + 1, ctx, .cons e tl, ao', h => by
    obtain ⟨e', tl', he, htl, hao⟩ := resolveAllOfList_cons_inv h
    subst hao
    obtain ⟨hne', hnb'⟩ := noBare_entry univ hu fuel ctx e e' he
    rw [noRefAllOfList, hne', hnb', noBare_list univ hu fuel ctx tl tl' htl]
    rfl

theorem noBare_entry (univ : Universe) (hu : univRefFree univ = true) :
    (fuel : Nat) → ∀ (ctx : String) (e e' : Fragment),
    resolveEntryFuel fuel ctx univ e = .ok e' →
    nonEmptyRef e' = false ∧ noRefAllOf e' = true
  | 0, _, _, _, h => by rw [resolveEntryFuel] at h; cases h
  | fuel + 1, ctx, e, e', h => by
    rw [resolveEntryFuel] at h
    by_cases hne : nonEmptyRef e = true
    · rw [if_pos hne] at h
      cases href : fragRef e with
      | none => rw [href] at h; cases h
      | some r =>
        rw [href] at h
        dsimp only at h
        cases hparse : refParts r with
        | error msg => rw [hparse] at h; cases h
        | ok pq =>
          rw [hparse] at h
          cases pq with
          | mk typeName pkgPath =>
            dsimp only at h
            by_cases hcond : (decide (pkgPath ≠ "") && !pkgKnown univ pkgPath) = true
            · rw [if_pos hcond] at h; cases h
            · rw [if_neg hcond] at h
              cases hlook : lookupUniv univ
                  ((if pkgPath = "" then ctx else pkgPath), typeName) with
              | none => rw [hlook] at h; cases h
              | some t =>
                rw [hlook] at h
                refine ⟨?_, noBare_main univ hu fuel _ t e' h⟩
                rw [nonEmptyRef_congr (resolve_ok_fragRef h).1]
                exact lookupUniv_refFree univ hu _ t hlook
    · rw [if_neg hne] at h
      have hfalse : nonEmptyRef e = false := by
        cases hb : nonEmptyRef e
        · rfl
        · exact absurd hb hne
      refine ⟨?_, noBare_main univ hu fuel ctx e e' h⟩
      rw [nonEmptyRef_congr (resolve_ok_fragRef h).1]
      exact hfalse

theorem noBare_props (univ : Universe) (hu : univRefFree univ = true) :
    (fuel : Nat) → ∀ (ctx : String) (pr pr' : Props),
    resolvePropsFuel fuel ctx univ pr = .ok pr' → noRefAllOfProps pr' = true
  | 0, _, _, _, h => by rw [resolvePropsFuel] at h; cases h
  | fuel + 1, ctx, .nil, pr', h => by
    rw [resolvePropsFuel_nil_inv h, noRefAllOfProps]
  | fuel + 1, ctx, .cons k v tl, pr', h => by
    obtain ⟨v', tl', hv, htl, hpr⟩ := resolvePropsFuel_cons_inv h
    subst hpr
    rw [noRefAllOfProps, noBare_main univ hu fuel ctx v v' hv,
      noBare_props univ hu fuel ctx tl tl' htl]
    rfl

theorem noBare_opt (univ : Universe) (hu : univRefFree univ = true) :
    (fuel : Nat) → ∀ (ctx : String) (it it' : OptFrag),
    resolveOptFuel fuel ctx univ it = .ok it' → noRefAllOfOpt it' = true
  | 0, _, _, _, h => by rw [resolveOptFuel] at h; cases h
  | fuel + 1, ctx, it, it', h => by
    rcases resolveOptFuel_inv h with ⟨_, h2⟩ | ⟨f, f', _, h2, h3⟩
    · rw [h2, noRefAllOfOpt]
    · rw [h3, noRefAllOfOpt]
      exact noBare_main univ hu fuel ctx f f' h2

end

/-- C4 (amended): over a SchemaUniverse in which no fragment carries a
top-level reference (no alias schemas), whenever allOf-reference resolution
succeeds the returned fragment contains zero allOf entries carrying a bare
reference at any nesting depth: each referencing entry has been replaced by
the deep copy of the referenced fragment, recursively resolved. When the
universe does contain an alias schema, an embedded alias leaves its target
reference behind as an allOf entry (see the counterexample). -/
theorem c4_resolve_leaves_no_bare_allOf_refs (fuel : Nat) (ctx : String)
    (univ : Universe) (s s' : Fragment) (hu : univRefFree univ = true)
    (h : resolveAllOfRefs fuel ctx univ s = .ok s') : noRefAllOf s' = true :=
  noBare_main univ hu fuel ctx s s' h

/-- Witness for the amended C4: the three-level embedding chain A embeds B
embeds C, where B and C each declare a property. Resolution succeeds, the
result contains the properties declared on B and on C at the expected
nesting, and it has no referencing allOf entry at any depth (the last
conjunct via the amended theorem). -/
theorem c4_chain_witness :
    resolveAllOfRefs 10 "p"
        [(("p", "B"), .mk Option.none Option.none
            (.cons "b" (.mk Option.none (Option.some "string") .nil .none .none .nil) .nil)
            .none .none
            (.cons (.mk (Option.some "#/definitions/C") Option.none .nil .none .none .nil) .nil)),
          (("p", "C"), .mk Option.none Option.none
            (.cons "c" (.mk Option.none (Option.some "string") .nil .none .none .nil) .nil)
            .none .none .nil)]
        (.mk Option.none Option.none
          (.cons "a" (.mk Option.none (Option.some "string") .nil .none .none .nil) .nil)
          .none .none
          (.cons (.mk (Option.some "#/definitions/B") Option.none .nil .none .none .nil) .nil)) =
      .ok (.mk Option.none Option.none
        (.cons "a" (.mk Option.none (Option.some "string") .nil .none .none .nil) .nil)
        .none .none
        (.cons (.mk Option.none Option.none
          (.cons "b" (.mk Option.none (Option.some "string") .nil .none .none .nil) .nil)
          .none .none
          (.cons (.mk Option.none Option.none
            (.cons "c" (.mk Option.none (Option.some "string") .nil .none .none .nil) .nil)
            .none .none .nil) .nil)) .nil)) ∧
    noRefAllOf (.mk Option.none Option.none
        (.cons "a" (.mk Option.none (Option.some "string") .nil .none .none .nil) .nil)
        .none .none
        (.cons (.mk Option.none Option.none
          (.cons "b" (.mk Option.none (Option.some "string") .nil .none .none .nil) .nil)
          .none .none
          (.cons (.mk Option.none Option.none
            (.cons "c" (.mk Option.none (Option.some "string") .nil .none .none .nil) .nil)
            .none .none .nil) .nil)) .nil)) = true :=
  ⟨rfl,
    c4_resolve_leaves_no_bare_allOf_refs 10 "p"
      [(("p", "B"), .mk Option.none Option.none
          (.cons "b" (.mk Option.none (Option.some "string") .nil .none .none .nil) .nil)
          .none .none
          (.cons (.mk (Option.some "#/definitions/C") Option.none .nil .none .none .nil) .nil)),
        (("p", "C"), .mk Option.none Option.none
          (.cons "c" (.mk Option.none (Option.some "string") .nil .none .none .nil) .nil)
          .none .none .nil)]
      (.mk Option.none Option.none
        (.cons "a" (.mk Option.none (Option.some "string") .nil .none .none .nil) .nil)
        .none .none
        (.cons (.mk (Option.some "#/definitions/B") Option.none .nil .none .none .nil) .nil))
      _ (by rfl) (by rfl)⟩

/-- Counterexample to C4 as stated: the universe maps B to an alias schema, a
bare reference to C, exactly what the parser produces for a Go type alias.
Resolving a fragment whose allOf embeds B succeeds, but the substituted deep
copy is itself a bare reference, which the recursive resolution of the copy
never rewrites (it only rewrites allOf entries), so the result still contains
an allOf entry carrying a reference. -/
theorem c4_counterexample :
    resolveAllOfRefs 6 "p"
        [(("p", "B"), .mk (Option.some "#/definitions/C") Option.none .nil .none .none .nil)]
        (.mk Option.none Option.none .nil .none .none
          (.cons (.mk (Option.some "#/definitions/B") Option.none .nil .none .none .nil) .nil)) =
      .ok (.mk Option.none Option.none .nil .none .none
        (.cons (.mk (Option.some "#/definitions/C") Option.none .nil .none .none .nil) .nil)) ∧
    noRefAllOf (.mk Option.none Option.none .nil .none .none
        (.cons (.mk (Option.some "#/definitions/C") Option.none .nil .none .none .nil) .nil)) =
      false :=
  ⟨rfl, rfl⟩

/-! The alias-resolution pass over the definitions map. -/

theorem lookupKey_updateKey : (d : JObj) → (key : String) → (v : JValue) →
    (k' : String) →
    lookupKey (updateKey d key v) k' =
      if k' = key then (lookupKey d key).map (fun _ => v) else lookupKey d k'
  | .nil, key, v, k' => by
    rw [updateKey]
    by_cases h : k' = key
    · rw [if_pos h, lookupKey, lookupKey]
      rfl
    · rw [if_neg h]
  | .cons k w tl, key, v, k' => by
    rw [updateKey]
    by_cases hk : k = key
    · rw [if_pos hk]
      subst hk
      by_cases h' : k = k'
      · subst h'
        rw [lookupKey, if_pos rfl, if_pos rfl, lookupKey, if_pos rfl, Option.map_some']
      · have h'' : ¬(k' = k) := fun h => h' h.symm
        rw [lookupKey, if_neg h', if_neg h'', lookupKey, if_neg h']
    · rw [if_neg hk]
      by_cases h' : k = k'
      · subst h'
        have hq : ¬(k = key) := hk
        rw [lookupKey, if_pos rfl, if_neg hq, lookupKey, if_pos rfl]
      · rw [lookupKey, if_neg h', lookupKey_updateKey tl key v k']
        by_cases hq : k' = key
        · rw [if_pos hq, if_pos hq, lookupKey, if_neg hk]
        · rw [if_neg hq, if_neg hq, lookupKey, if_neg h']

theorem resolveStep_lookup_other (d : JObj) (key k' : String) (hne : k' ≠ key) :
    lookupKey (resolveStep d key) k' = lookupKey d k' := by
  rw [resolveStep]
  cases h1 : lookupKey d key with
  | none => rfl
  | some dv =>
    cases dv with
    | obj dm =>
      dsimp only
      cases h2 : lookupKey dm ("$ref") with
      | none => rfl
      | some rv =>
        cases rv with
        | str r =>
          dsimp only
          cases h3 : lookupKey d (trimRefKey r) with
          | none => rfl
          | some tv =>
            cases tv with
            | obj tm => rw [lookupKey_updateKey, if_neg hne]
            | null => rfl
            | bool _ => rfl
            | num _ => rfl
            | str _ => rfl
            | arr _ => rfl
        | null => rfl
        | bool _ => rfl
        | num _ => rfl
        | arr _ => rfl
        | obj _ => rfl
    | null => rfl
    | bool _ => rfl
    | num _ => rfl
    | str _ => rfl
    | arr _ => rfl

theorem resolveStep_of_notAlias (d : JObj) (key : String) (dm : JObj)
    (h1 : lookupKey d key = some (.obj dm)) (h2 : isAliasBody dm = false) :
    resolveStep d key = d := by
  rw [resolveStep, h1]
  rw [isAliasBody] at h2
  dsimp only
  cases hr : lookupKey dm ("$ref") with
  | none => rfl
  | some rv =>
    cases rv with
    | str r => rw [hr] at h2; cases h2
    | null => rfl
    | bool _ => rfl
    | num _ => rfl
    | arr _ => rfl
    | obj _ => rfl

theorem resolveStep_preserves_none (d : JObj) (key k' : String)
    (h : lookupKey d k' = none) : lookupKey (resolveStep d key) k' = none := by
  by_cases he : k' = key
  · subst he
    rw [resolveStep, h]
    exact h
  · rw [resolveStep_lookup_other d key k' he]
    exact h

theorem foldSteps_lookup_of_notin (k : String) :
    (ks : List String) → (d : JObj) → k ∉ ks →
    lookupKey (ks.foldl resolveStep d) k = lookupKey d k
  | [], d, _ => rfl
  | k0 :: ks, d, hmem => by
    rw [List.foldl_cons]
    have hne : k ≠ k0 := fun h => hmem (h ▸ List.mem_cons_self k0 ks)
    rw [foldSteps_lookup_of_notin k ks (resolveStep d k0) (fun h => hmem (List.mem_cons_of_mem k0 h)),
      resolveStep_lookup_other d k0 k hne]

theorem foldSteps_nonalias_stable (t : String) (tm : JObj)
    (htna : isAliasBody tm = false) :
    (ks : List String) → (d : JObj) → lookupKey d t = some (.obj tm) →
    lookupKey (ks.foldl resolveStep d) t = some (.obj tm)
  | [], _, h => h
  | k0 :: ks, d, h => by
    rw [List.foldl_cons]
    refine foldSteps_nonalias_stable t tm htna ks (resolveStep d k0) ?_
    by_cases he : t = k0
    · subst he
      rw [resolveStep_of_notAlias d t tm h htna]
      exact h
    · rw [resolveStep_lookup_other d k0 t he]
      exact h

theorem foldSteps_none_stable (t : String) :
    (ks : List String) → (d : JObj) → lookupKey d t = none →
    lookupKey (ks.foldl resolveStep d) t = none
  | [], _, h => h
  | k0 :: ks, d, h => by
    rw [List.foldl_cons]
    exact foldSteps_none_stable t ks (resolveStep d k0)
      (resolveStep_preserves_none d k0 t h)

theorem mem_keysOf {k : String} {v : JValue} :
    (d : JObj) → lookupKey d k = some v → k ∈ keysOf d
  | .nil, h => by rw [lookupKey] at h; cases h
  | .cons k0 w tl, h => by
    rw [keysOf]
    by_cases he : k0 = k
    · exact he ▸ List.mem_cons_self k0 (keysOf tl)
    · rw [lookupKey, if_neg he] at h
      exact List.mem_cons_of_mem k0 (mem_keysOf tl h)

/-- C7 (amended): for every definitions-map entry whose body is an object
carrying a string reference, whose target key (the reference with the
definitions marker trimmed) is bound in the map to an object body that is
not itself an alias (carries no string-valued ref marker), the
alias-resolution pass replaces the entry by the target body with every
non-reference sibling field of the original written over it, extras winning
over same-named fields of the copied target. The non-alias condition on the
target is forced by the counterexample below: when the target is itself an
alias that the pass visits first, the entry is built from the target's
already-resolved body, not from a copy of the target's body. The Nodup
hypothesis states that the association list models a Go map, whose keys are
unique. -/
theorem c7_alias_collapses_to_target_with_extras (defs : JObj) (k : String)
    (dm : JObj) (r : String) (tm : JObj)
    (hnd : (keysOf defs).Nodup)
    (hk : lookupKey defs k = some (.obj dm))
    (hr : lookupKey dm ("$ref") = some (.str r))
    (ht : lookupKey defs (trimRefKey r) = some (.obj tm))
    (htna : isAliasBody tm = false) :
    lookupKey (resolveRefDefinitions defs) k = some (.obj (mergeExtras dm tm)) := by
  obtain ⟨l1, l2, hsplit⟩ := List.append_of_mem (mem_keysOf defs hk)
  rw [resolveRefDefinitions, hsplit, List.foldl_append, List.foldl_cons]
  have hnd' : (l1 ++ k :: l2).Nodup := hsplit ▸ hnd
  rw [List.nodup_append] at hnd'
  obtain ⟨hnd1, hnd2, hdisj⟩ := hnd'
  have hkl2 : k ∉ l2 := (List.nodup_cons.mp hnd2).1
  have hkl1 : k ∉ l1 := fun hin => hdisj hin (List.mem_cons_self k l2)
  have hd1k : lookupKey (l1.foldl resolveStep defs) k = some (.obj dm) := by
    rw [foldSteps_lookup_of_notin k l1 defs hkl1]
    exact hk
  have hd1t : lookupKey (l1.foldl resolveStep defs) (trimRefKey r) = some (.obj tm) :=
    foldSteps_nonalias_stable (trimRefKey r) tm htna l1 defs ht
  have hstep : resolveStep (l1.foldl resolveStep defs) k =
      updateKey (l1.foldl resolveStep defs) k (.obj (mergeExtras dm tm)) := by
    rw [resolveStep, hd1k]
    dsimp only
    rw [hr]
    dsimp only
    rw [hd1t]
  rw [hstep, foldSteps_lookup_of_notin k l2 _ hkl2, lookupKey_updateKey,
    if_pos rfl, hd1k, Option.map_some']

/-- Witness for C7: the alias definition carrying an extra marker collapses
to its target body with the marker re-applied, on the concrete example of the
spec. -/
theorem c7_witness :
    lookupKey
        (resolveRefDefinitions
          (.cons "X" (.obj (.cons "type" (.str "object") .nil))
            (.cons "A" (.obj (.cons "$ref" (.str "#/definitions/X")
              (.cons "x-marker" (.bool true) .nil))) .nil)))
        ("A") =
      some (.obj (.cons "type" (.str "object")
        (.cons "x-marker" (.bool true) .nil))) := by
  have h := c7_alias_collapses_to_target_with_extras
    (.cons "X" (.obj (.cons "type" (.str "object") .nil))
      (.cons "A" (.obj (.cons "$ref" (.str "#/definitions/X")
        (.cons "x-marker" (.bool true) .nil))) .nil))
    ("A") (.cons "$ref" (.str "#/definitions/X") (.cons "x-marker" (.bool true) .nil))
    ("#/definitions/X") (.cons "type" (.str "object") .nil)
    (by decide) (by rfl) (by rfl) (by rfl) (by rfl)
  exact h

/-- Counterexample to C7 as stated: a chained alias. B is an alias of C
carrying an extra field y, A is an alias of B carrying an extra marker, and C
is a plain object. The pass (modelled in list order, standing in for the
unspecified Go map iteration order) visits B first and resolves it to the
body of C plus y; when it then visits A, the target body it copies is the
already-resolved body of B, so A becomes type:object, y, x-marker. The claim
requires A to become a copy of the target's body (the body of B in the map,
a bare reference to C plus y) with the extras re-applied, which would be
ref-to-C, y, x-marker: the fourth conjunct shows the code's result, and the
fifth that it differs from the claim's required replacement. -/
theorem c7_counterexample :
    lookupKey
        (.cons "B" (.obj (.cons "$ref" (.str "#/definitions/C")
            (.cons "y" (.bool true) .nil)))
          (.cons "A" (.obj (.cons "$ref" (.str "#/definitions/B")
              (.cons "x-marker" (.bool true) .nil)))
            (.cons "C" (.obj (.cons "type" (.str "object") .nil)) .nil)))
        ("A") =
      some (.obj (.cons "$ref" (.str "#/definitions/B")
        (.cons "x-marker" (.bool true) .nil))) ∧
    lookupKey (.cons "$ref" (.str "#/definitions/B")
        (.cons "x-marker" (.bool true) .nil)) ("$ref") =
      some (.str "#/definitions/B") ∧
    lookupKey
        (.cons "B" (.obj (.cons "$ref" (.str "#/definitions/C")
            (.cons "y" (.bool true) .nil)))
          (.cons "A" (.obj (.cons "$ref" (.str "#/definitions/B")
              (.cons "x-marker" (.bool true) .nil)))
            (.cons "C" (.obj (.cons "type" (.str "object") .nil)) .nil)))
        (trimRefKey "#/definitions/B") =
      some (.obj (.cons "$ref" (.str "#/definitions/C")
        (.cons "y" (.bool true) .nil))) ∧
    lookupKey
        (resolveRefDefinitions
          (.cons "B" (.obj (.cons "$ref" (.str "#/definitions/C")
              (.cons "y" (.bool true) .nil)))
            (.cons "A" (.obj (.cons "$ref" (.str "#/definitions/B")
                (.cons "x-marker" (.bool true) .nil)))
              (.cons "C" (.obj (.cons "type" (.str "object") .nil)) .nil))))
        ("A") =
      some (.obj (.cons "type" (.str "object")
        (.cons "y" (.bool true) (.cons "x-marker" (.bool true) .nil)))) ∧
    lookupKey
        (resolveRefDefinitions
          (.cons "B" (.obj (.cons "$ref" (.str "#/definitions/C")
              (.cons "y" (.bool true) .nil)))
            (.cons "A" (.obj (.cons "$ref" (.str "#/definitions/B")
                (.cons "x-marker" (.bool true) .nil)))
              (.cons "C" (.obj (.cons "type" (.str "object") .nil)) .nil))))
        ("A") ≠
      some (.obj (mergeExtras
        (.cons "$ref" (.str "#/definitions/B")
          (.cons "x-marker" (.bool true) .nil))
        (.cons "$ref" (.str "#/definitions/C")
          (.cons "y" (.bool true) .nil)))) := by
  refine ⟨rfl, rfl, rfl, rfl, fun h => ?_⟩
  have hd : lookupKey
      (resolveRefDefinitions
        (.cons "B" (.obj (.cons "$ref" (.str "#/definitions/C")
            (.cons "y" (.bool true) .nil)))
          (.cons "A" (.obj (.cons "$ref" (.str "#/definitions/B")
              (.cons "x-marker" (.bool true) .nil)))
            (.cons "C" (.obj (.cons "type" (.str "object") .nil)) .nil))))
      ("A") =
      some (.obj (.cons "type" (.str "object")
        (.cons "y" (.bool true) (.cons "x-marker" (.bool true) .nil)))) := rfl
  rw [hd] at h
  have hm : mergeExtras
      (.cons "$ref" (.str "#/definitions/B")
        (.cons "x-marker" (.bool true) .nil))
      (.cons "$ref" (.str "#/definitions/C")
        (.cons "y" (.bool true) .nil)) =
      .cons "$ref" (.str "#/definitions/C")
        (.cons "y" (.bool true) (.cons "x-marker" (.bool true) .nil)) := rfl
  rw [hm] at h
  simp at h

/-- C9: a dangling alias is tolerated. When an alias definition references a
target key absent from the definitions map, the alias-resolution pass leaves
the entry byte-for-byte unchanged (the bare reference and all its extras
survive) and the pass, which has no failure path, completes. -/
theorem c9_dangling_alias_left_unchanged (defs : JObj) (k : String)
    (dm : JObj) (r : String)
    (hnd : (keysOf defs).Nodup)
    (hk : lookupKey defs k = some (.obj dm))
    (hr : lookupKey dm ("$ref") = some (.str r))
    (ht : lookupKey defs (trimRefKey r) = none) :
    lookupKey (resolveRefDefinitions defs) k = some (.obj dm) := by
  obtain ⟨l1, l2, hsplit⟩ := List.append_of_mem (mem_keysOf defs hk)
  rw [resolveRefDefinitions, hsplit, List.foldl_append, List.foldl_cons]
  have hnd' : (l1 ++ k :: l2).Nodup := hsplit ▸ hnd
  rw [List.nodup_append] at hnd'
  obtain ⟨hnd1, hnd2, hdisj⟩ := hnd'
  have hkl2 : k ∉ l2 := (List.nodup_cons.mp hnd2).1
  have hkl1 : k ∉ l1 := fun hin => hdisj hin (List.mem_cons_self k l2)
  have hd1k : lookupKey (l1.foldl resolveStep defs) k = some (.obj dm) := by
    rw [foldSteps_lookup_of_notin k l1 defs hkl1]
    exact hk
  have hd1t : lookupKey (l1.foldl resolveStep defs) (trimRefKey r) = none :=
    foldSteps_none_stable (trimRefKey r) l1 defs ht
  have hstep : resolveStep (l1.foldl resolveStep defs) k =
      l1.foldl resolveStep defs := by
    rw [resolveStep, hd1k]
    dsimp only
    rw [hr]
    dsimp only
    rw [hd1t]
  rw [hstep, foldSteps_lookup_of_notin k l2 _ hkl2]
  exact hd1k

/-- Witness for C9: an alias referencing an absent target key survives
verbatim, extras included. -/
theorem c9_witness :
    lookupKey
        (resolveRefDefinitions
          (.cons "A" (.obj (.cons "$ref" (.str "#/definitions/Missing")
            (.cons "x-marker" (.bool true) .nil))) .nil))
        ("A") =
      some (.obj (.cons "$ref" (.str "#/definitions/Missing")
        (.cons "x-marker" (.bool true) .nil))) :=
  c9_dangling_alias_left_unchanged
    (.cons "A" (.obj (.cons "$ref" (.str "#/definitions/Missing")
      (.cons "x-marker" (.bool true) .nil))) .nil)
    ("A") (.cons "$ref" (.str "#/definitions/Missing")
      (.cons "x-marker" (.bool true) .nil))
    ("#/definitions/Missing") (by decide) (by rfl) (by rfl) (by rfl)

end OpenAPIGen
